import Mathlib

/-!
Verification of the document/workspace-edit core and the service registry of
coc.nvim against its natural-language specification.

The service registry (`ServiceManager`) is embedded directly from
`src/services.ts`.  The workspace edit applier, document model and file
operations are not shipped in `src/` (only their tests are), so they are
modelled from the specification, as marked on each definition.
-/

namespace Coc

/-! ## Text model primitives (modelled from the spec) -/

/-- Modelled from the spec: a position in line/character coordinates
(`TextEdit — {range: {start, end} in line/character coordinates, ...}`). -/
structure Pos where
  line : Nat
  character : Nat
deriving DecidableEq, Repr

/-- Modelled from the spec: a range with start and end positions. -/
structure TextRange where
  start : Pos
  stop : Pos
deriving DecidableEq, Repr

/-- Modelled from the spec: `TextEdit — {range, newText: string}`. -/
structure TextEdit where
  range : TextRange
  newText : String
deriving DecidableEq, Repr

/-- Split a list of characters into lines at newline characters.
An empty input yields one empty line, matching the convention that a
document always has at least one line. -/
def splitLinesAux : List Char → List (List Char)
  | [] => [[]]
  | c :: rest =>
    match splitLinesAux rest with
    | [] => [[c]]
    | h :: t => if c = '\n' then [] :: h :: t else (c :: h) :: t

/-- Split a string into its lines at newline characters. -/
def splitLines (s : String) : List String :=
  (splitLinesAux s.data).map (fun l => ⟨l⟩)

/-- The first `n` characters of a string. -/
def takeChars (s : String) (n : Nat) : String := ⟨s.data.take n⟩

/-- The string without its first `n` characters. -/
def dropChars (s : String) (n : Nat) : String := ⟨s.data.drop n⟩

/-- Modelled from the spec: applying one range replacement to a document's
ordered sequence of line strings.  The lines strictly before the range's
start and strictly after the range's end are kept; the text from the start
line before the start character, the replacement text, and the text from
the end line after the end character are joined and re-split into lines. -/
def applyTextEditLines (lines : List String) (e : TextEdit) : List String :=
  let before := lines.take e.range.start.line
  let after := lines.drop (e.range.stop.line + 1)
  let startLine := (lines.get? e.range.start.line).getD ""
  let endLine := (lines.get? e.range.stop.line).getD ""
  let pre := takeChars startLine e.range.start.character
  let post := dropChars endLine e.range.stop.character
  before ++ splitLines (pre ++ e.newText ++ post) ++ after

/-- Modelled from the spec: `Multiple edits to the same document within one
TextDocumentEdit are applied as a single combined patch in the order
given`. -/
def applyTextEdits (lines : List String) (edits : List TextEdit) : List String :=
  edits.foldl applyTextEditLines lines

/-! ## Document (modelled from the spec) -/

/-- Modelled from the spec: a Document pairs a host buffer handle and a
canonical URI with the current text model (ordered lines plus a version
counter, `version: integer ≥ 1`). -/
structure Doc where
  bufnr : Nat
  uri : String
  lines : List String
  version : Nat
deriving DecidableEq, Repr

/-- Modelled from the spec: a host-reported incremental change (affected
line range plus replacement lines) or a full-content refresh. -/
inductive Delta where
  | incremental (startLine stopLine : Nat) (newLines : List String)
  | full (newLines : List String)
deriving DecidableEq, Repr

/-- Modelled from the spec: `applyChange(delta)` consumes a host-reported
change, produces a new text model and increments the version exactly once
per applied change batch. -/
def applyChange (d : Doc) (delta : Delta) : Doc :=
  match delta with
  | .full ls => { d with lines := ls, version := d.version + 1 }
  | .incremental s e ls =>
    { d with lines := d.lines.take s ++ ls ++ d.lines.drop e, version := d.version + 1 }

/-! ## Workspace state (modelled from the spec) -/

/-- Modelled from the spec: the process-wide registry state — the open
Documents, and the backing filesystem as a mapping from URI to file
content (files only; this core treats the filesystem as a flat external
store). -/
structure WorkspaceState where
  docs : List Doc
  fs : List (String × String)
deriving DecidableEq, Repr

/-- Modelled from the spec: `getDocument(uri) → Document | absent`. -/
def getDocument (st : WorkspaceState) (uri : String) : Option Doc :=
  st.docs.find? (fun d => d.uri = uri)

/-- Whether a file exists on the backing filesystem. -/
def fileExists (st : WorkspaceState) (uri : String) : Bool :=
  (st.fs.lookup uri).isSome

/-- Write a file's content, replacing any previous entry for the URI. -/
def setFs (fs : List (String × String)) (uri content : String) : List (String × String) :=
  (uri, content) :: fs.filter (fun p => p.1 ≠ uri)

/-- Remove a file from the filesystem. -/
def removeFs (fs : List (String × String)) (uri : String) : List (String × String) :=
  fs.filter (fun p => p.1 ≠ uri)

/-- Modelled from the spec: `CreateFile`'s URI must use a filesystem
scheme; synthetic schemes (e.g. `term://`) are not creatable. -/
def isFsScheme (uri : String) : Bool :=
  takeChars uri 7 = "file://"

/-! ## WorkspaceEdit (modelled from the spec) -/

/-- Modelled from the spec: the operations of a `documentChanges` batch —
`TextDocumentEdit{target: {uri, version: integer | null}, edits}`,
`CreateFile{uri, options}`, `DeleteFile{uri, options}` and
`RenameFile{oldUri, newUri, options}`. -/
inductive DocOp where
  | textDocumentEdit (uri : String) (version : Option Nat) (edits : List TextEdit)
  | createFile (uri : String) (overwrite ignoreIfExists : Bool)
  | deleteFile (uri : String) (ignoreIfNotExists recursive : Bool)
  | renameFile (oldUri newUri : String) (overwrite ignoreIfExists : Bool)
deriving DecidableEq, Repr

/-- Modelled from the spec: a `WorkspaceEdit` batch in one of two mutually
exclusive shapes — `changes: mapping URI → ordered sequence of TextEdit`
or `documentChanges: ordered sequence of Operation`. -/
structure WorkspaceEdit where
  changes : Option (List (String × List TextEdit))
  documentChanges : Option (List DocOp)
deriving DecidableEq, Repr

/-- Modelled from the spec, validation of one `documentChanges` operation:
a `TextDocumentEdit` target must resolve to an open Document (a non-null
version must then equal the Document's current version) or to an existing
file; a `CreateFile` URI must use a filesystem scheme; `DeleteFile` and
`RenameFile` carry no validation-phase constraint. -/
def validOp (st : WorkspaceState) : DocOp → Bool
  | .textDocumentEdit uri version _ =>
    match getDocument st uri with
    | some d =>
      match version with
      | some v => v = d.version
      | none => true
    | none => fileExists st uri
  | .createFile uri _ _ => isFsScheme uri
  | .deleteFile _ _ _ => true
  | .renameFile _ _ _ _ => true

/-- Modelled from the spec, validation of one `changes` entry: the same
open-or-exists check as `TextDocumentEdit` with an implicit null
version. -/
def validChange (st : WorkspaceState) (uri : String) : Bool :=
  (getDocument st uri).isSome || fileExists st uri

/-- Modelled from the spec, validation phase of the applier: reject when
both or neither shapes are present, then check every operation in order;
any failure invalidates the whole batch. -/
def validate (st : WorkspaceState) (we : WorkspaceEdit) : Bool :=
  match we.changes, we.documentChanges with
  | some _, some _ => false
  | none, none => false
  | some cs, none => cs.all (fun c => validChange st c.1)
  | none, some dc => dc.all (validOp st)

/-- Modelled from the spec, application of one operation (`none` means the
operation failed at apply time).  A `TextDocumentEdit` against an open
Document goes through the Document's change path (version increments); one
against a non-open existing file rewrites the file content after a user
confirmation, represented by the `confirm` parameter (a negative
confirmation fails the operation).  `CreateFile`, `DeleteFile` and
`RenameFile` honor their `overwrite` / `ignoreIfExists` /
`ignoreIfNotExists` options; a rename retargets any open Document for the
old URI to the new URI in place (same buffer handle). -/
def applyOp (confirm : Bool) (st : WorkspaceState) : DocOp → Option WorkspaceState
  | .textDocumentEdit uri _ edits =>
    match getDocument st uri with
    | some _ =>
      some { st with docs := st.docs.map (fun d =>
        if d.uri = uri then
          { d with lines := applyTextEdits d.lines edits, version := d.version + 1 }
        else d) }
    | none =>
      if confirm then
        match st.fs.lookup uri with
        | some content =>
          some { st with
            fs := setFs st.fs uri
              (String.intercalate "\n" (applyTextEdits (splitLines content) edits)) }
        | none => none
      else none
  | .createFile uri overwrite ignoreIfExists =>
    if fileExists st uri then
      if overwrite then some { st with fs := setFs st.fs uri "" }
      else if ignoreIfExists then some st
      else none
    else some { st with fs := setFs st.fs uri "" }
  | .deleteFile uri ignoreIfNotExists _ =>
    if fileExists st uri then some { st with fs := removeFs st.fs uri }
    else if ignoreIfNotExists then some st
    else none
  | .renameFile oldUri newUri overwrite ignoreIfExists =>
    if !(fileExists st oldUri || (getDocument st oldUri).isSome) then none
    else if (fileExists st newUri || (getDocument st newUri).isSome) && !overwrite then
      if ignoreIfExists then some st else none
    else
      some { docs := st.docs.map (fun d => if d.uri = oldUri then { d with uri := newUri } else d),
             fs := match st.fs.lookup oldUri with
                   | some content => setFs (removeFs st.fs oldUri) newUri content
                   | none => st.fs }

/-- Modelled from the spec, apply phase: operations run in the literal
order given; a mid-apply failure stops the batch with overall failure but
already-applied earlier operations remain applied. -/
def applyOps (confirm : Bool) (st : WorkspaceState) : List DocOp → Bool × WorkspaceState
  | [] => (true, st)
  | op :: rest =>
    match applyOp confirm st op with
    | some st1 => applyOps confirm st1 rest
    | none => (false, st)

/-- Modelled from the spec: `applyEdit(WorkspaceEdit) → bool` — validate
fully, then apply fully; any validation failure aborts the entire batch
and reports failure with no document or file touched.  The `changes` shape
applies each URI's edits like a `TextDocumentEdit` with a null version. -/
def applyEdit (confirm : Bool) (st : WorkspaceState) (we : WorkspaceEdit) :
    Bool × WorkspaceState :=
  if validate st we then
    match we.changes, we.documentChanges with
    | some cs, none =>
      applyOps confirm st (cs.map (fun c => .textDocumentEdit c.1 none c.2))
    | none, some dc => applyOps confirm st dc
    | _, _ => (false, st)
  else (false, st)

/-! ## Standalone file operations (modelled from the spec) -/

/-- Modelled from the spec: `createFile(path, options)` — if the target
exists, honor `overwrite`/`ignoreIfExists`; the default (neither set) is
failure-on-exists; otherwise the file is created (empty). -/
def createFile (st : WorkspaceState) (p : String) (overwrite ignoreIfExists : Bool) :
    Bool × WorkspaceState :=
  if fileExists st p then
    if overwrite then (true, { st with fs := setFs st.fs p "" })
    else if ignoreIfExists then (true, st)
    else (false, st)
  else (true, { st with fs := setFs st.fs p "" })

/-- Modelled from the spec: `deleteFile(path, options)` — honor
`ignoreIfNotExists`; deleting a missing file without it is a failure. -/
def deleteFile (st : WorkspaceState) (p : String) (ignoreIfNotExists : Bool) :
    Bool × WorkspaceState :=
  if fileExists st p then (true, { st with fs := removeFs st.fs p })
  else if ignoreIfNotExists then (true, st)
  else (false, st)

/-- Modelled from the spec: `renameFile(old, new, options)` — overwrite
semantics mirror `CreateFile`; when the registry has an open Document for
the old URI, that Document is retargeted to the new URI in place (same
buffer handle, new URI) rather than closed and reopened. -/
def renameFile (st : WorkspaceState) (oldUri newUri : String)
    (overwrite ignoreIfExists : Bool) : Bool × WorkspaceState :=
  if !(fileExists st oldUri || (getDocument st oldUri).isSome) then (false, st)
  else if (fileExists st newUri || (getDocument st newUri).isSome) && !overwrite then
    if ignoreIfExists then (true, st) else (false, st)
  else
    (true,
     { docs := st.docs.map (fun d => if d.uri = oldUri then { d with uri := newUri } else d),
       fs := match st.fs.lookup oldUri with
             | some content => setFs (removeFs st.fs oldUri) newUri content
             | none => st.fs })

/-! ## Service registry, embedded from `src/services.ts` -/

/-- The service state enum (`ServiceStat` in `src/types`, used by
`src/services.ts`). -/
inductive ServiceStat where
  | Init
  | Starting
  | Running
  | Restarting
  | Stopped
deriving DecidableEq, Repr

/-- The slice of `IServiceProvider` that `ServiceManager` reads:
`{name, languageIds, state}`. -/
structure Service where
  name : String
  languageIds : List String
  state : ServiceStat
deriving DecidableEq, Repr

/-- Modelled from the spec: a service's own `init`, invoked by
`ServiceManager.start`, transitions the service to `Starting` (the
provider implementations are not part of `src/`). -/
def serviceInit (s : Service) : Service :=
  { s with state := .Starting }

/-- The mutable state of `ServiceManager` (`src/services.ts`): the
`languageIds` set accumulated by `regist`, and the `registed` name → service
map in insertion order. -/
structure ServiceManager where
  languageIds : List String
  registed : List (String × Service)
deriving DecidableEq, Repr

/-- `ServiceManager.regist` (`src/services.ts` lines 59–74): if the name is
already taken the error is echoed (non-fatally) and the state is left
unchanged; otherwise the service is stored and its language ids are added
to the set. -/
def regist (m : ServiceManager) (s : Service) : ServiceManager :=
  if (m.registed.lookup s.name).isSome then m
  else
    { registed := m.registed ++ [(s.name, s)],
      languageIds := s.languageIds.foldl
        (fun acc l => if l ∈ acc then acc else acc ++ [l]) m.languageIds }

/-- `ServiceManager.checkProvider` (`src/services.ts` lines 76–85):
false for an empty languageId (`!languageId`), false when the id is not in
the accumulated set, true otherwise. -/
def checkProvider (m : ServiceManager) (languageId : String) : Bool :=
  if languageId = "" then false
  else languageId ∈ m.languageIds

/-- `ServiceManager.getServices` (`src/services.ts` lines 87–96): a bare
`return` (undefined, modelled as `none`) when `checkProvider` fails,
otherwise the registered services whose `languageIds` contain the id, in
registration order. -/
def getServices (m : ServiceManager) (languageId : String) : Option (List Service) :=
  if checkProvider m languageId then
    some ((m.registed.map Prod.snd).filter (fun s => languageId ∈ s.languageIds))
  else none

/-- `ServiceManager.start` (`src/services.ts` lines 98–107): when
`checkProvider` passes, invoke `init` on each matching service currently
`Init` or `Stopped`; otherwise do nothing. -/
def start (m : ServiceManager) (languageId : String) : ServiceManager :=
  if checkProvider m languageId then
    { m with registed := m.registed.map (fun p =>
        if languageId ∈ p.2.languageIds ∧
            (p.2.state = ServiceStat.Init ∨ p.2.state = ServiceStat.Stopped) then
          (p.1, serviceInit p.2)
        else p) }
  else m

/-- The accumulated `languageIds` set covers every registered service's
language ids (an invariant of `ServiceManager`, established by `regist`
from the initial empty state). -/
def langIdsCovered (m : ServiceManager) : Bool :=
  m.registed.all (fun p => p.2.languageIds.all (fun l => l ∈ m.languageIds))

/-- Every id in the accumulated `languageIds` set is carried by some
registered service (the converse invariant). -/
def langIdsSound (m : ServiceManager) : Bool :=
  m.languageIds.all (fun l => m.registed.any (fun p => l ∈ p.2.languageIds))

/-! ## Helper lemmas -/

theorem applyChange_version (d : Doc) (delta : Delta) :
    (applyChange d delta).version = d.version + 1 := by
  cases delta <;> rfl

theorem all_eq_false_of_mem {α : Type} {p : α → Bool} {l : List α} {a : α}
    (hmem : a ∈ l) (ha : p a = false) : l.all p = false := by
  cases h : l.all p with
  | false => rfl
  | true =>
    have := List.all_eq_true.mp h a hmem
    rw [ha] at this
    exact absurd this (by simp)

theorem find?_map_update (docs : List Doc) (u : String) (f : Doc → Doc)
    (hf : ∀ x, (f x).uri = x.uri) (d : Doc)
    (h : docs.find? (fun x => x.uri = u) = some d) :
    (docs.map (fun x => if x.uri = u then f x else x)).find? (fun x => x.uri = u)
      = some (f d) := by
  induction docs with
  | nil => simp [List.find?] at h
  | cons a l ih =>
    by_cases ha : a.uri = u
    · rw [List.find?_cons_of_pos _ (by simpa using ha)] at h
      have had : a = d := by simpa using h
      simp only [List.map_cons, if_pos ha]
      have hfa : (fun x : Doc => decide (x.uri = u)) (f a) = true := by
        simp [hf a, ha]
      have hstep := List.find?_cons_of_pos (p := fun x : Doc => decide (x.uri = u))
        (List.map (fun x => if x.uri = u then f x else x) l) hfa
      rw [hstep, had]
    · rw [List.find?_cons_of_neg _ (by simpa using ha)] at h
      simp only [List.map_cons, if_neg ha]
      rw [List.find?_cons_of_neg _ (by simpa using ha)]
      exact ih h

theorem find?_map_rename_old (docs : List Doc) (oldU newU : String)
    (hne : oldU ≠ newU) :
    (docs.map (fun x => if x.uri = oldU then { x with uri := newU } else x)).find?
      (fun x => x.uri = oldU) = none := by
  induction docs with
  | nil => rfl
  | cons a l ih =>
    by_cases ha : a.uri = oldU
    · simp only [List.map_cons, if_pos ha]
      rw [List.find?_cons_of_neg _ (by simpa using fun hc => hne hc.symm)]
      exact ih
    · simp only [List.map_cons, if_neg ha]
      rw [List.find?_cons_of_neg _ (by simpa using ha)]
      exact ih

theorem find?_map_rename_new (docs : List Doc) (oldU newU : String) (d : Doc)
    (hold : docs.find? (fun x => x.uri = oldU) = some d)
    (hnew : docs.find? (fun x => x.uri = newU) = none) :
    (docs.map (fun x => if x.uri = oldU then { x with uri := newU } else x)).find?
      (fun x => x.uri = newU) = some { d with uri := newU } := by
  induction docs with
  | nil => simp [List.find?] at hold
  | cons a l ih =>
    have hanew : ¬ a.uri = newU := by
      intro hc
      have := List.find?_eq_none.mp hnew a (by simp)
      simp [hc] at this
    rw [List.find?_cons_of_neg _ (by simpa using hanew)] at hnew
    by_cases ha : a.uri = oldU
    · rw [List.find?_cons_of_pos _ (by simpa using ha)] at hold
      have had : d = a := by simpa using hold.symm
      subst had
      simp only [List.map_cons, if_pos ha]
      rw [List.find?_cons_of_pos _ (by simp)]
    · rw [List.find?_cons_of_neg _ (by simpa using ha)] at hold
      simp only [List.map_cons, if_neg ha]
      rw [List.find?_cons_of_neg _ (by simpa using hanew)]
      exact ih hold hnew

theorem lookup_removeFs (fs : List (String × String)) (p : String) :
    (removeFs fs p).lookup p = none := by
  induction fs with
  | nil => rfl
  | cons a l ih =>
    by_cases h : a.1 = p
    · simpa [removeFs, List.filter_cons, h] using ih
    · have hb : (p == a.1) = false := by simp [Ne.symm h]
      simpa [removeFs, List.filter_cons, h, List.lookup, hb] using ih

theorem lookup_none_not_mem {β : Type} (l : List (String × β)) (k : String)
    (h : l.lookup k = none) : k ∉ l.map Prod.fst := by
  induction l with
  | nil => simp
  | cons a t ih =>
    by_cases hk : a.1 = k
    · simp [List.lookup, hk] at h
    · have hb : (k == a.1) = false := by simp [Ne.symm hk]
      simp only [List.lookup, hb] at h
      simp only [List.map_cons, List.mem_cons]
      rintro (hc | hc)
      · exact hk hc.symm
      · exact ih h hc

theorem mem_foldl_add (ls acc : List String) (x : String) (h : x ∈ acc) :
    x ∈ ls.foldl (fun acc l => if l ∈ acc then acc else acc ++ [l]) acc := by
  induction ls generalizing acc with
  | nil => simpa using h
  | cons l ls ih =>
    simp only [List.foldl_cons]
    apply ih
    by_cases hl : l ∈ acc
    · simpa [hl] using h
    · simp [hl, List.mem_append, h]

theorem mem_foldl_add_self (ls acc : List String) (x : String) (h : x ∈ ls) :
    x ∈ ls.foldl (fun acc l => if l ∈ acc then acc else acc ++ [l]) acc := by
  induction ls generalizing acc with
  | nil => simp at h
  | cons l ls ih =>
    simp only [List.foldl_cons]
    rcases List.mem_cons.mp h with rfl | hm
    · apply mem_foldl_add
      by_cases hl : x ∈ acc
      · simp [hl]
      · simp [hl]
    · exact ih _ hm

theorem mem_foldl_add_inv (ls acc : List String) (x : String)
    (h : x ∈ ls.foldl (fun acc l => if l ∈ acc then acc else acc ++ [l]) acc) :
    x ∈ acc ∨ x ∈ ls := by
  induction ls generalizing acc with
  | nil => exact Or.inl (by simpa using h)
  | cons l ls ih =>
    simp only [List.foldl_cons] at h
    rcases ih _ h with hacc | hls
    · by_cases hl : l ∈ acc
      · rw [if_pos hl] at hacc
        exact Or.inl hacc
      · rw [if_neg hl] at hacc
        rcases List.mem_append.mp hacc with h1 | h1
        · exact Or.inl h1
        · simp only [List.mem_singleton] at h1
          exact Or.inr (h1 ▸ List.mem_cons_self l ls)
    · exact Or.inr (List.mem_cons_of_mem _ hls)

theorem langIdsCovered_regist (m : ServiceManager) (s : Service)
    (h : langIdsCovered m = true) : langIdsCovered (regist m s) = true := by
  cases hL : (m.registed.lookup s.name).isSome with
  | true => simpa [regist, hL] using h
  | false =>
    simp only [langIdsCovered, List.all_eq_true, decide_eq_true_eq] at h
    simp only [regist, hL, Bool.false_eq_true, if_false, langIdsCovered,
      List.all_eq_true, decide_eq_true_eq, List.mem_append, List.mem_singleton]
    rintro p (hp | hp) l hl
    · exact mem_foldl_add _ _ _ (h p hp l hl)
    · subst hp
      exact mem_foldl_add_self _ _ _ hl

theorem langIdsSound_regist (m : ServiceManager) (s : Service)
    (h : langIdsSound m = true) : langIdsSound (regist m s) = true := by
  cases hL : (m.registed.lookup s.name).isSome with
  | true => simpa [regist, hL] using h
  | false =>
    simp only [langIdsSound, List.all_eq_true, List.any_eq_true,
      decide_eq_true_eq] at h
    simp only [regist, hL, Bool.false_eq_true, if_false, langIdsSound,
      List.all_eq_true, List.any_eq_true, decide_eq_true_eq, List.mem_append,
      List.mem_singleton]
    intro l hl
    rcases mem_foldl_add_inv _ _ _ hl with hm | hs
    · rcases h l hm with ⟨p, hp, hpl⟩
      exact ⟨p, Or.inl hp, hpl⟩
    · exact ⟨(s.name, s), Or.inr rfl, hs⟩

theorem validate_false_of_bad_op (st : WorkspaceState) (we : WorkspaceEdit)
    (dc : List DocOp) (op : DocOp) (hdc : we.documentChanges = some dc)
    (hmem : op ∈ dc) (hop : validOp st op = false) : validate st we = false := by
  cases hc : we.changes with
  | some cs => simp [validate, hdc, hc]
  | none =>
    simp only [validate, hdc, hc]
    exact all_eq_false_of_mem hmem hop

/-! ## Claim theorems -/

/-- C1: for every open Document and every WorkspaceEdit whose
`documentChanges` contain a `TextDocumentEdit` with a non-null version
different from the Document's current version, `applyEdit` returns failure
and the Document's content and version are unchanged afterwards. -/
theorem applyEdit_stale_version_rejected (confirm : Bool) (st : WorkspaceState)
    (we : WorkspaceEdit) (dc : List DocOp) (uri : String) (w : Nat)
    (es : List TextEdit) (d : Doc)
    (hdc : we.documentChanges = some dc)
    (hmem : DocOp.textDocumentEdit uri (some w) es ∈ dc)
    (hdoc : getDocument st uri = some d)
    (hver : w ≠ d.version) :
    applyEdit confirm st we = (false, st) ∧
    getDocument (applyEdit confirm st we).2 uri = some d := by
  have hop : validOp st (.textDocumentEdit uri (some w) es) = false := by
    simp [validOp, hdoc, hver]
  have hv := validate_false_of_bad_op st we dc _ hdc hmem hop
  have happ : applyEdit confirm st we = (false, st) := by simp [applyEdit, hv]
  exact ⟨happ, by rw [happ]; exact hdoc⟩

/-- Witness for C1: the Document `file:///a` is open at version 1 with
content `[""]`; a `TextDocumentEdit` carrying version 10 is rejected and
the state is unchanged. -/
theorem applyEdit_stale_version_rejected_witness :
    applyEdit true ⟨[⟨1, "file:///a", [""], 1⟩], []⟩
        ⟨none, some [.textDocumentEdit "file:///a" (some 10) []]⟩
      = (false, ⟨[⟨1, "file:///a", [""], 1⟩], []⟩) ∧
    getDocument (applyEdit true ⟨[⟨1, "file:///a", [""], 1⟩], []⟩
        ⟨none, some [.textDocumentEdit "file:///a" (some 10) []]⟩).2 "file:///a"
      = some ⟨1, "file:///a", [""], 1⟩ :=
  applyEdit_stale_version_rejected true ⟨[⟨1, "file:///a", [""], 1⟩], []⟩
    ⟨none, some [.textDocumentEdit "file:///a" (some 10) []]⟩
    [.textDocumentEdit "file:///a" (some 10) []] "file:///a" 10 []
    ⟨1, "file:///a", [""], 1⟩ rfl (by decide) (by decide) (by decide)

/-- C2: any validation failure (target URI neither open nor existing, bad
scheme, version mismatch, malformed shape) makes `applyEdit` report
failure for the whole batch while leaving every document and file
untouched; in particular a `changes` entry for a non-open, non-existing
URI fails and creates nothing. -/
theorem applyEdit_validation_failure_atomic (confirm : Bool)
    (st : WorkspaceState) (we : WorkspaceEdit) :
    (validate st we = false → applyEdit confirm st we = (false, st)) ∧
    (∀ cs uri es, we.changes = some cs → (uri, es) ∈ cs →
      getDocument st uri = none → fileExists st uri = false →
      applyEdit confirm st we = (false, st)) := by
  constructor
  · intro h
    simp [applyEdit, h]
  · intro cs uri es hcs hmem hdoc hfs
    have hvc : validChange st uri = false := by simp [validChange, hdoc, hfs]
    have hv : validate st we = false := by
      cases hd : we.documentChanges with
      | some dc => simp [validate, hcs, hd]
      | none =>
        simp only [validate, hcs, hd]
        exact all_eq_false_of_mem hmem (by simpa using hvc)
    simp [applyEdit, hv]

/-- Witness for C2: applying `changes` against `file:///nope`, which is
neither an open Document nor an existing file, fails and the state is
unchanged. -/
theorem applyEdit_validation_failure_atomic_witness :
    applyEdit true ⟨[⟨1, "file:///a", [""], 1⟩], []⟩
        ⟨some [("file:///nope", [⟨⟨⟨0, 0⟩, ⟨0, 0⟩⟩, "foo"⟩])], none⟩
      = (false, ⟨[⟨1, "file:///a", [""], 1⟩], []⟩) :=
  (applyEdit_validation_failure_atomic true ⟨[⟨1, "file:///a", [""], 1⟩], []⟩
      ⟨some [("file:///nope", [⟨⟨⟨0, 0⟩, ⟨0, 0⟩⟩, "foo"⟩])], none⟩).2
    [("file:///nope", [⟨⟨⟨0, 0⟩, ⟨0, 0⟩⟩, "foo"⟩])] "file:///nope"
    [⟨⟨⟨0, 0⟩, ⟨0, 0⟩⟩, "foo"⟩] rfl (by decide) (by decide) (by decide)

/-- C3: each applied change batch increments a Document's version by
exactly one; over any sequence of batches the version grows by exactly the
number of batches, so it strictly increases and never skips. -/
theorem document_version_increments (d : Doc) (deltas : List Delta) :
    (deltas.foldl applyChange d).version = d.version + deltas.length ∧
    ∀ delta : Delta, (applyChange d delta).version = d.version + 1 := by
  constructor
  · induction deltas generalizing d with
    | nil => simp
    | cons dl rest ih =>
      simp only [List.foldl_cons, List.length_cons]
      rw [ih, applyChange_version]
      omega
  · exact applyChange_version d

/-- C4: a `documentChanges` batch containing a `CreateFile` whose URI
scheme is not a filesystem scheme is rejected by `applyEdit` and no file
is created. -/
theorem applyEdit_createFile_bad_scheme (confirm : Bool) (st : WorkspaceState)
    (we : WorkspaceEdit) (dc : List DocOp) (uri : String) (ow ign : Bool)
    (hdc : we.documentChanges = some dc)
    (hmem : DocOp.createFile uri ow ign ∈ dc)
    (hscheme : isFsScheme uri = false) :
    applyEdit confirm st we = (false, st) ∧
    fileExists (applyEdit confirm st we).2 uri = fileExists st uri := by
  have hop : validOp st (.createFile uri ow ign) = false := by
    simp [validOp, hscheme]
  have hv := validate_false_of_bad_op st we dc _ hdc hmem hop
  have happ : applyEdit confirm st we = (false, st) := by simp [applyEdit, hv]
  exact ⟨happ, by rw [happ]⟩

/-- Witness for C4: `CreateFile` on `term://.` is rejected and the
(empty) filesystem still has no entry for it. -/
theorem applyEdit_createFile_bad_scheme_witness :
    applyEdit true ⟨[], []⟩ ⟨none, some [.createFile "term://." true false]⟩
      = (false, ⟨[], []⟩) ∧
    fileExists (applyEdit true ⟨[], []⟩
        ⟨none, some [.createFile "term://." true false]⟩).2 "term://."
      = fileExists ⟨[], []⟩ "term://." :=
  applyEdit_createFile_bad_scheme true ⟨[], []⟩
    ⟨none, some [.createFile "term://." true false]⟩
    [.createFile "term://." true false] "term://." true false
    rfl (by decide) (by decide)

/-- The concrete edit of C5: insert `"bar"` at position (0,0). -/
def insertBarEdit : TextEdit := ⟨⟨⟨0, 0⟩, ⟨0, 0⟩⟩, "bar"⟩

/-- C5: `applyEdit` with `changes = {uri: [insert("bar") at (0,0)]}`
against an open Document whose line 0 is `""` returns success and line 0
of that Document becomes `"bar"`. -/
theorem applyEdit_insert_bar_line0 (confirm : Bool) (st : WorkspaceState)
    (uri : String) (d : Doc)
    (hdoc : getDocument st uri = some d)
    (hline : d.lines.get? 0 = some "") :
    (applyEdit confirm st ⟨some [(uri, [insertBarEdit])], none⟩).1 = true ∧
    ∃ d2,
      getDocument (applyEdit confirm st ⟨some [(uri, [insertBarEdit])], none⟩).2 uri
        = some d2 ∧ d2.lines.get? 0 = some "bar" := by
  have hv : validate st ⟨some [(uri, [insertBarEdit])], none⟩ = true := by
    simp [validate, validChange, hdoc]
  have hline2 : d.lines[0]? = some "" := by simpa using hline
  have hlines : applyTextEdits d.lines [insertBarEdit] = "bar" :: d.lines.tail := by
    have hsplit : splitLines (takeChars "" 0 ++ "bar" ++ dropChars "" 0) = ["bar"] := by
      decide
    simp [applyTextEdits, applyTextEditLines, insertBarEdit, hline2, hsplit]
  have hstep : applyEdit confirm st ⟨some [(uri, [insertBarEdit])], none⟩ =
      (true, { st with docs := st.docs.map (fun x =>
        if x.uri = uri then
          { x with lines := applyTextEdits x.lines [insertBarEdit],
                   version := x.version + 1 }
        else x) }) := by
    simp [applyEdit, hv, applyOps, applyOp, hdoc]
  rw [hstep]
  refine ⟨rfl, { d with lines := applyTextEdits d.lines [insertBarEdit],
                        version := d.version + 1 }, ?_, ?_⟩
  · simp only [getDocument]
    exact find?_map_update st.docs uri
      (fun x => { x with lines := applyTextEdits x.lines [insertBarEdit],
                         version := x.version + 1 }) (fun x => rfl) d hdoc
  · rw [hlines]
    rfl

/-- Witness for C5: the Document `file:///a` has lines `[""]`; applying
the insert yields success and line 0 equal to `"bar"`. -/
theorem applyEdit_insert_bar_line0_witness :
    (applyEdit true ⟨[⟨1, "file:///a", [""], 1⟩], []⟩
        ⟨some [("file:///a", [insertBarEdit])], none⟩).1 = true ∧
    ∃ d2,
      getDocument (applyEdit true ⟨[⟨1, "file:///a", [""], 1⟩], []⟩
          ⟨some [("file:///a", [insertBarEdit])], none⟩).2 "file:///a"
        = some d2 ∧ d2.lines.get? 0 = some "bar" :=
  applyEdit_insert_bar_line0 true ⟨[⟨1, "file:///a", [""], 1⟩], []⟩
    "file:///a" ⟨1, "file:///a", [""], 1⟩ (by decide) (by decide)

/-- C6: `createFile(p)` then `deleteFile(p)` leaves the filesystem without
`p`, and `createFile(p, {ignoreIfExists:true})` on an existing path is a
success that leaves the whole state (hence `p`'s content) unchanged. -/
theorem createFile_deleteFile_roundtrip (st : WorkspaceState) (p : String) :
    fileExists (deleteFile (createFile st p false false).2 p false).2 p = false ∧
    ∀ c, st.fs.lookup p = some c → createFile st p false true = (true, st) := by
  constructor
  · cases hex : fileExists st p with
    | true =>
      have h1 : (createFile st p false false).2 = st := by simp [createFile, hex]
      rw [h1]
      have h2 : deleteFile st p false = (true, { st with fs := removeFs st.fs p }) := by
        simp [deleteFile, hex]
      rw [h2]
      simp [fileExists, lookup_removeFs]
    | false =>
      have h1 : (createFile st p false false).2 = { st with fs := setFs st.fs p "" } := by
        simp [createFile, hex]
      rw [h1]
      have hex2 : fileExists { st with fs := setFs st.fs p "" } p = true := by
        simp [fileExists, setFs, List.lookup]
      have h2 : deleteFile { st with fs := setFs st.fs p "" } p false
          = (true, { st with fs := removeFs (setFs st.fs p "") p }) := by
        simp [deleteFile, hex2]
      rw [h2]
      simp [fileExists, lookup_removeFs]
  · intro c hc
    have hex : fileExists st p = true := by simp [fileExists, hc]
    simp [createFile, hex]

/-- Witness for C6: on a state where `file:///p` holds `"foo"`, the
round-trip leaves no file and the `ignoreIfExists` create is an exact
no-op. -/
theorem createFile_deleteFile_roundtrip_witness :
    fileExists (deleteFile (createFile ⟨[], [("file:///p", "foo")]⟩
        "file:///p" false false).2 "file:///p" false).2 "file:///p" = false ∧
    createFile ⟨[], [("file:///p", "foo")]⟩ "file:///p" false true
      = (true, ⟨[], [("file:///p", "foo")]⟩) :=
  ⟨(createFile_deleteFile_roundtrip ⟨[], [("file:///p", "foo")]⟩ "file:///p").1,
   (createFile_deleteFile_roundtrip ⟨[], [("file:///p", "foo")]⟩ "file:///p").2
     "foo" (by decide)⟩

/-- C7: `renameFile(old, new)` with an open Document for `old` (and a free
target) succeeds; afterwards `getDocument(old)` is absent and
`getDocument(new)` returns the same Document — same buffer handle, same
content and version — retargeted in place to `new`. -/
theorem renameFile_retargets_document (st : WorkspaceState)
    (oldUri newUri : String) (ow ign : Bool) (d : Doc)
    (hdoc : getDocument st oldUri = some d)
    (hnd : getDocument st newUri = none)
    (hnf : fileExists st newUri = false)
    (hne : oldUri ≠ newUri) :
    (renameFile st oldUri newUri ow ign).1 = true ∧
    getDocument (renameFile st oldUri newUri ow ign).2 oldUri = none ∧
    getDocument (renameFile st oldUri newUri ow ign).2 newUri
      = some { d with uri := newUri } := by
  have hg1 : (fileExists st oldUri || (getDocument st oldUri).isSome) = true := by
    simp [hdoc]
  have hg2 : (fileExists st newUri || (getDocument st newUri).isSome) = false := by
    simp [hnd, hnf]
  have hres : renameFile st oldUri newUri ow ign =
      (true,
       { docs := st.docs.map (fun x =>
           if x.uri = oldUri then { x with uri := newUri } else x),
         fs := match st.fs.lookup oldUri with
               | some content => setFs (removeFs st.fs oldUri) newUri content
               | none => st.fs }) := by
    simp [renameFile, hg1, hg2]
  rw [hres]
  refine ⟨rfl, ?_, ?_⟩
  · exact find?_map_rename_old st.docs oldUri newUri hne
  · exact find?_map_rename_new st.docs oldUri newUri d hdoc hnd

/-- Witness for C7: renaming `file:///a` (open as buffer 1) to
`file:///b` succeeds and retargets the Document in place. -/
theorem renameFile_retargets_document_witness :
    (renameFile ⟨[⟨1, "file:///a", ["x"], 3⟩], []⟩
        "file:///a" "file:///b" false false).1 = true ∧
    getDocument (renameFile ⟨[⟨1, "file:///a", ["x"], 3⟩], []⟩
        "file:///a" "file:///b" false false).2 "file:///a" = none ∧
    getDocument (renameFile ⟨[⟨1, "file:///a", ["x"], 3⟩], []⟩
        "file:///a" "file:///b" false false).2 "file:///b"
      = some ⟨1, "file:///b", ["x"], 3⟩ :=
  renameFile_retargets_document ⟨[⟨1, "file:///a", ["x"], 3⟩], []⟩
    "file:///a" "file:///b" false false ⟨1, "file:///a", ["x"], 3⟩
    (by decide) (by decide) (by decide) (by decide)

/-- C8: `regist` on an already-taken name is a non-fatal no-op (the
registry's name-to-service mapping, and its language id set, are left
unchanged), and every registration preserves uniqueness of the registered
names. -/
theorem regist_duplicate_name_noop (m : ServiceManager) (s : Service) :
    ((m.registed.lookup s.name).isSome = true → regist m s = m) ∧
    ((m.registed.map Prod.fst).Nodup → ((regist m s).registed.map Prod.fst).Nodup) := by
  constructor
  · intro h
    simp [regist, h]
  · intro h
    cases hL : (m.registed.lookup s.name).isSome with
    | true => simpa [regist, hL] using h
    | false =>
      have hlk : m.registed.lookup s.name = none := by
        cases hx : m.registed.lookup s.name
        · rfl
        · rw [hx] at hL
          simp at hL
      have hnm : s.name ∉ m.registed.map Prod.fst := lookup_none_not_mem _ _ hlk
      simp only [regist, hL, Bool.false_eq_true, if_false, List.map_append,
        List.map_cons, List.map_nil]
      rw [List.nodup_append]
      exact ⟨h, List.nodup_singleton _, by simpa [List.disjoint_singleton] using hnm⟩

/-- Witness for C8: registering a second service named `a` leaves the
registry unchanged, and the names stay duplicate-free. -/
theorem regist_duplicate_name_noop_witness :
    regist ⟨["ts"], [("a", ⟨"a", ["ts"], ServiceStat.Init⟩)]⟩
        ⟨"a", ["py"], ServiceStat.Init⟩
      = ⟨["ts"], [("a", ⟨"a", ["ts"], ServiceStat.Init⟩)]⟩ ∧
    ((regist ⟨["ts"], [("a", ⟨"a", ["ts"], ServiceStat.Init⟩)]⟩
        ⟨"a", ["py"], ServiceStat.Init⟩).registed.map Prod.fst).Nodup :=
  ⟨(regist_duplicate_name_noop ⟨["ts"], [("a", ⟨"a", ["ts"], ServiceStat.Init⟩)]⟩
      ⟨"a", ["py"], ServiceStat.Init⟩).1 (by decide),
   (regist_duplicate_name_noop ⟨["ts"], [("a", ⟨"a", ["ts"], ServiceStat.Init⟩)]⟩
      ⟨"a", ["py"], ServiceStat.Init⟩).2 (by decide)⟩

/-- C9 counterexample: a reachable registry holds the service `s` whose
`languageIds` include `""` and whose state is `Init`; `start ""` leaves
the whole registry — in particular that matching service — untouched, so
`init` is not invoked on it, contradicting the claim for the empty
languageId. -/
theorem start_empty_languageId_counterexample :
    (regist ⟨[], []⟩ ⟨"s", [""], ServiceStat.Init⟩).registed
      = [("s", ⟨"s", [""], ServiceStat.Init⟩)] ∧
    "" ∈ (⟨"s", [""], ServiceStat.Init⟩ : Service).languageIds ∧
    (⟨"s", [""], ServiceStat.Init⟩ : Service).state = ServiceStat.Init ∧
    start (regist ⟨[], []⟩ ⟨"s", [""], ServiceStat.Init⟩) ""
      = regist ⟨[], []⟩ ⟨"s", [""], ServiceStat.Init⟩ := by
  decide

/-- C9 (amended): for every registry state whose language id set covers
its registrations and every non-empty languageId, `start` invokes `init`
exactly on the registered services whose `languageIds` include the id and
whose state is `Init` or `Stopped`, transitioning each to `Starting`;
every other service, and the rest of the state, is untouched. -/
theorem start_inits_matching_services (m : ServiceManager) (lid : String)
    (hne : lid ≠ "") (hcov : langIdsCovered m = true) :
    (start m lid).registed = m.registed.map (fun p =>
      if lid ∈ p.2.languageIds ∧
          (p.2.state = ServiceStat.Init ∨ p.2.state = ServiceStat.Stopped) then
        (p.1, serviceInit p.2)
      else p) ∧
    (start m lid).languageIds = m.languageIds := by
  cases hcp : checkProvider m lid with
  | true => exact ⟨by simp [start, hcp], by simp [start, hcp]⟩
  | false =>
    have hnm : lid ∉ m.languageIds := by
      intro hmem
      simp [checkProvider, hne, hmem] at hcp
    have hid : ∀ p ∈ m.registed,
        ¬ (lid ∈ p.2.languageIds ∧
           (p.2.state = ServiceStat.Init ∨ p.2.state = ServiceStat.Stopped)) := by
      intro p hp hcontra
      have hall : ∀ l ∈ p.2.languageIds, l ∈ m.languageIds := by
        simpa using List.all_eq_true.mp hcov p hp
      exact hnm (hall lid hcontra.1)
    have hmapid : m.registed.map (fun p =>
        if lid ∈ p.2.languageIds ∧
            (p.2.state = ServiceStat.Init ∨ p.2.state = ServiceStat.Stopped) then
          (p.1, serviceInit p.2)
        else p) = m.registed := by
      rw [List.map_congr_left (fun p hp => if_neg (hid p hp))]
      simp
    constructor
    · rw [hmapid]
      simp [start, hcp]
    · simp [start, hcp]

/-- Witness for C9 (amended): in a registry with an `Init` service `a` and
a `Running` service `b`, both for `ts`, `start "ts"` moves exactly `a` to
`Starting`. -/
theorem start_inits_matching_services_witness :
    (start (regist (regist ⟨[], []⟩ ⟨"a", ["ts"], ServiceStat.Init⟩)
        ⟨"b", ["ts"], ServiceStat.Running⟩) "ts").registed
      = (regist (regist ⟨[], []⟩ ⟨"a", ["ts"], ServiceStat.Init⟩)
          ⟨"b", ["ts"], ServiceStat.Running⟩).registed.map (fun p =>
        if "ts" ∈ p.2.languageIds ∧
            (p.2.state = ServiceStat.Init ∨ p.2.state = ServiceStat.Stopped) then
          (p.1, serviceInit p.2)
        else p) ∧
    (start (regist (regist ⟨[], []⟩ ⟨"a", ["ts"], ServiceStat.Init⟩)
        ⟨"b", ["ts"], ServiceStat.Running⟩) "ts").languageIds
      = (regist (regist ⟨[], []⟩ ⟨"a", ["ts"], ServiceStat.Init⟩)
          ⟨"b", ["ts"], ServiceStat.Running⟩).languageIds :=
  start_inits_matching_services
    (regist (regist ⟨[], []⟩ ⟨"a", ["ts"], ServiceStat.Init⟩)
      ⟨"b", ["ts"], ServiceStat.Running⟩) "ts" (by decide) (by decide)

/-- C10: under the registry invariants, `getServices` returns `none`
(undefined) for an empty languageId or one carried by no registered
service; otherwise it returns exactly the registered services whose
`languageIds` contain the id, and it never returns an empty list. -/
theorem getServices_absent_or_exact (m : ServiceManager) (lid : String)
    (hcov : langIdsCovered m = true) (hsound : langIdsSound m = true) :
    ((lid = "" ∨ ∀ p ∈ m.registed, lid ∉ p.2.languageIds) →
      getServices m lid = none) ∧
    ((lid ≠ "" ∧ ∃ p ∈ m.registed, lid ∈ p.2.languageIds) →
      getServices m lid =
        some ((m.registed.map Prod.snd).filter (fun s => lid ∈ s.languageIds))) ∧
    (∀ res, getServices m lid = some res → res ≠ []) := by
  refine ⟨?_, ?_, ?_⟩
  · rintro (rfl | hnone)
    · simp [getServices, checkProvider]
    · by_cases hlid : lid = ""
      · simp [getServices, checkProvider, hlid]
      · have hnm : lid ∉ m.languageIds := by
          intro hmem
          have hx : ∃ a b, (a, b) ∈ m.registed ∧ lid ∈ b.languageIds := by
            simpa using List.all_eq_true.mp hsound lid (by simpa using hmem)
          rcases hx with ⟨a, b, hab, hbl⟩
          exact hnone (a, b) hab hbl
        simp [getServices, checkProvider, hlid, hnm]
  · rintro ⟨hne, p, hp, hpl⟩
    have hmem : lid ∈ m.languageIds := by
      have hall : ∀ l ∈ p.2.languageIds, l ∈ m.languageIds := by
        simpa using List.all_eq_true.mp hcov p hp
      exact hall lid hpl
    simp [getServices, checkProvider, hne, hmem]
  · intro res hres
    cases hcp : checkProvider m lid with
    | false => simp [getServices, hcp] at hres
    | true =>
      have hne : lid ≠ "" := by
        intro hc
        simp [checkProvider, hc] at hcp
      have hmem : lid ∈ m.languageIds := by
        by_contra hnm
        simp [checkProvider, hne, hnm] at hcp
      have hx : ∃ a b, (a, b) ∈ m.registed ∧ lid ∈ b.languageIds := by
        simpa using List.all_eq_true.mp hsound lid (by simpa using hmem)
      rcases hx with ⟨a, b, hp, hpl⟩
      have hres2 : res = (m.registed.map Prod.snd).filter
          (fun s => lid ∈ s.languageIds) := by
        simp only [getServices, hcp, if_true, Option.some_inj] at hres
        exact hres.symm
      have hmemf : b ∈ (m.registed.map Prod.snd).filter
          (fun s => lid ∈ s.languageIds) := by
        rw [List.mem_filter]
        exact ⟨List.mem_map_of_mem Prod.snd hp, by simpa using hpl⟩
      rw [hres2]
      exact List.ne_nil_of_mem hmemf

/-- Witness for C10: with only service `a` for `ts` registered,
`getServices` is `none` on `"py"`, exact on `"ts"`, and non-empty
whenever it is `some`. -/
theorem getServices_absent_or_exact_witness :
    getServices (regist ⟨[], []⟩ ⟨"a", ["ts"], ServiceStat.Init⟩) "py" = none ∧
    getServices (regist ⟨[], []⟩ ⟨"a", ["ts"], ServiceStat.Init⟩) "ts"
      = some [⟨"a", ["ts"], ServiceStat.Init⟩] :=
  ⟨(getServices_absent_or_exact (regist ⟨[], []⟩ ⟨"a", ["ts"], ServiceStat.Init⟩)
      "py" (by decide) (by decide)).1 (by decide),
   by
    have h := (getServices_absent_or_exact
        (regist ⟨[], []⟩ ⟨"a", ["ts"], ServiceStat.Init⟩) "ts" (by decide)
        (by decide)).2.1 ⟨by decide, ("a", ⟨"a", ["ts"], ServiceStat.Init⟩),
      by decide, by decide⟩
    simpa using h⟩
